import Mathlib

/-!
# Verification of the `signal-rs` DSP core

Shallow embedding of `src/core/signal.rs` and `src/core/generator.rs`.

A Rust `Signal<T>` wraps a `Vec<T>`; we embed its data as a `List T`.
Rust's `Default::default()` for the numeric types used here is the zero
value, embedded via `Zero T`.  `usize` subtraction that can underflow
(a panic in the source) is embedded by returning `Option`, with `none`
standing for the fault.
-/

set_option autoImplicit false

namespace SignalRs

/-! ## Signal container and arithmetic (`src/core/signal.rs`) -/

namespace Signal

/-- Embedding of `Signal::mull_by_scalar`: multiply every sample by a scalar. -/
def mull_by_scalar {T : Type} [Mul T] (data : List T) (scalar : T) : List T :=
  data.map (fun x => x * scalar)

/-- Embedding of `Signal::add_delay`.  The source builds
`(0..delay).map(|_| default)` chained with `data.iter().take(data.len() - delay)`;
the `usize` subtraction `data.len() - delay` underflows (faults) when
`delay > data.len()`, which we embed as `none`. -/
def add_delay {T : Type} [Zero T] (data : List T) (delay : Nat) : Option (List T) :=
  if delay ≤ data.length then
    some (List.replicate delay 0 ++ data.take (data.length - delay))
  else
    none

/-- Embedding of `<Signal as Add>::add`: output length is
`max(len(self), len(rhs))`; each sample is `a + b` where an out-of-range
operand sample is replaced by `Default::default()` (zero). -/
def add {T : Type} [Zero T] [Add T] (a b : List T) : List T :=
  (List.range (max a.length b.length)).map (fun i =>
    (if i < a.length then a.getD i 0 else 0) +
    (if i < b.length then b.getD i 0 else 0))

/-- One accumulation step of the convolution loop body:
`buffer[k] = buffer[k] + v`. -/
def accumAt {T : Type} [Zero T] [Add T] (buf : List T) (k : Nat) (v : T) : List T :=
  buf.set k (buf.getD k 0 + v)

/-- Embedding of `<Signal as Mul>::mul` (discrete convolution).  The source
computes `len = self.len() + rhs.len() - 1` (a `usize` subtraction that
underflows exactly when both operands are empty, embedded as `none`),
initializes the buffer to `len` copies of `Default::default()`, then for
`i in 0..self.len()`, `j in 0..rhs.len()` accumulates
`self[i] * rhs[j]` into `buffer[i + j]`. -/
def mul {T : Type} [Zero T] [Add T] [Mul T] (a b : List T) : Option (List T) :=
  if a.length + b.length = 0 then
    none
  else
    some ((List.range a.length).foldl
      (fun buf i => (List.range b.length).foldl
        (fun buf j => accumAt buf (i + j) (a.getD i 0 * b.getD j 0)) buf)
      (List.replicate (a.length + b.length - 1) 0))

/-- The convolution loops of `Signal.mul` rephrased as a single left fold over
an explicit list of (index, addend) accumulation events. -/
def scatter {T : Type} [Zero T] [Add T] (ps : List (Nat × T)) (buf : List T) : List T :=
  ps.foldl (fun acc p => accumAt acc p.1 p.2) buf

/-- The accumulation events of `Signal.mul a b`, in execution order:
for `i in 0..a.length`, `j in 0..b.length`, add `a[i] * b[j]` at `i + j`. -/
def convPairs {T : Type} [Zero T] [Mul T] (a b : List T) : List (Nat × T) :=
  (List.range a.length).flatMap (fun i =>
    (List.range b.length).map (fun j => (i + j, a.getD i 0 * b.getD j 0)))

end Signal

/-! ## Generators (`src/core/generator.rs`)

Each Rust generator implements `Iterator` with `next(&mut self) -> Option<f32>`
that always returns `Some`; we embed `next` as a pure function from the state
to the emitted sample paired with the successor state.  `Impulse` and `Step`
emit only the exact constants `0.0` and `1.0`, embedded as the rationals
`0` and `1`. -/

/-- Embedding of `BufferWriter::write_buffer`: for each position of the given
buffer in order, one `next()` call produces the value stored there (the old
contents are ignored / fully overwritten).  Returns the overwritten buffer
together with the final generator state. -/
def write_buffer {σ α : Type} (next : σ → α × σ) : σ → List α → List α × σ
  | g, [] => ([], g)
  | g, _ :: rest =>
    let p := next g
    let r := write_buffer next p.2 rest
    (p.1 :: r.1, r.2)

/-- `n` sequential `next()` calls starting from state `g`, as a list. -/
def pulls {σ α : Type} (next : σ → α × σ) : σ → Nat → List α
  | _, 0 => []
  | g, n + 1 => (next g).1 :: pulls next (next g).2 n

/-- The generator state after `n` sequential `next()` calls from `g`. -/
def stateAfter {σ α : Type} (next : σ → α × σ) : σ → Nat → σ
  | g, 0 => g
  | g, n + 1 => stateAfter next (next g).2 n

/-- State of the Rust `Impulse` generator: the `impulse_sent` flag. -/
structure Impulse where
  impulse_sent : Bool

/-- Embedding of `Impulse::new`. -/
def Impulse.new : Impulse := ⟨false⟩

/-- Embedding of `<Impulse as Iterator>::next`: `0.0` when the impulse was
already sent, otherwise `1.0` and the flag is set. -/
def Impulse.next (g : Impulse) : ℚ × Impulse :=
  if g.impulse_sent then (0, g) else (1, ⟨true⟩)

/-- State of the Rust `Step` generator: the countdown `step_pos`. -/
structure Step where
  step_pos : Nat

/-- Embedding of `Step::new`. -/
def Step.new (step_pos : Nat) : Step := ⟨step_pos⟩

/-- Embedding of `<Step as Iterator>::next`: while `step_pos > 0` it
decrements and emits `0.0`, afterwards it emits `1.0` forever. -/
def Step.next (g : Step) : ℚ × Step :=
  if g.step_pos > 0 then (0, ⟨g.step_pos - 1⟩) else (1, g)

/-- State of the Rust `Sawtooth` generator.  `freq` is an `f32` used only in
the emitted value `fract((step_pos / sample_rate) * freq)`; the position
dynamics are exact integer arithmetic, which is what we embed.  `next`
returns the position the emitted `f32` sample is computed from (the sample
is a pure function of that position and the constructor constants). -/
structure Sawtooth where
  step_pos : Nat
  sample_rate : Nat

/-- Embedding of `Sawtooth::new(freq, sample_rate)`: position starts at 0. -/
def Sawtooth.new (sample_rate : Nat) : Sawtooth := ⟨0, sample_rate⟩

/-- Embedding of the state update of `<Sawtooth as Iterator>::next`:
`t = step_pos`; then `step_pos += 1; if step_pos >= sample_rate { step_pos = 0 }`;
the emitted sample is computed from `t`, which is returned. -/
def Sawtooth.next (g : Sawtooth) : Nat × Sawtooth :=
  let t := g.step_pos
  let p := g.step_pos + 1
  (t, ⟨if g.sample_rate ≤ p then 0 else p, g.sample_rate⟩)

/-- State of the Rust `Square` generator; the position dynamics in
`<Square as Iterator>::next` are identical to `Sawtooth`'s, and the emitted
`f32` sample (`0.0` or `1.0` by comparing `fract((t/r)*f)` with `0.5`) is a
pure function of the returned position and the constructor constants. -/
structure Square where
  step_pos : Nat
  sample_rate : Nat

/-- Embedding of `Square::new(freq, sample_rate)`: position starts at 0. -/
def Square.new (sample_rate : Nat) : Square := ⟨0, sample_rate⟩

/-- Embedding of the state update of `<Square as Iterator>::next`. -/
def Square.next (g : Square) : Nat × Square :=
  let t := g.step_pos
  let p := g.step_pos + 1
  (t, ⟨if g.sample_rate ≤ p then 0 else p, g.sample_rate⟩)

/-! ## Helper lemmas: the convolution fold -/

namespace Signal

theorem accumAt_length {T : Type} [Zero T] [Add T] (buf : List T) (k : Nat) (v : T) :
    (accumAt buf k v).length = buf.length := by
  simp [accumAt]

theorem accumAt_getD {T : Type} [Zero T] [Add T] (buf : List T) (k : Nat) (v : T)
    (hk : k < buf.length) (m : Nat) :
    (accumAt buf k v).getD m 0 =
      if m = k then buf.getD m 0 + v else buf.getD m 0 := by
  unfold accumAt
  rw [List.getD_eq_getElem?_getD, List.getElem?_set]
  by_cases h : m = k
  · subst h
    simp [hk, List.getD_eq_getElem?_getD]
  · have hkm : ¬ k = m := fun h' => h h'.symm
    simp [h, hkm, List.getD_eq_getElem?_getD]

theorem scatter_nil {T : Type} [Zero T] [Add T] (buf : List T) :
    scatter [] buf = buf := rfl

theorem scatter_cons {T : Type} [Zero T] [Add T] (p : Nat × T) (ps : List (Nat × T))
    (buf : List T) :
    scatter (p :: ps) buf = scatter ps (accumAt buf p.1 p.2) := rfl

theorem scatter_length {T : Type} [Zero T] [Add T] (ps : List (Nat × T)) (buf : List T) :
    (scatter ps buf).length = buf.length := by
  induction ps generalizing buf with
  | nil => rfl
  | cons p ps ih => rw [scatter_cons, ih, accumAt_length]

theorem scatter_getD {T : Type} [AddMonoid T] (ps : List (Nat × T)) (buf : List T)
    (hp : ∀ p ∈ ps, p.1 < buf.length) (k : Nat) :
    (scatter ps buf).getD k 0 =
      buf.getD k 0 + ((ps.filter (fun p => p.1 == k)).map Prod.snd).sum := by
  induction ps generalizing buf with
  | nil => simp [scatter_nil]
  | cons p ps ih =>
    have hpk : p.1 < buf.length := hp p (List.mem_cons_self p ps)
    have hrest : ∀ q ∈ ps, q.1 < (accumAt buf p.1 p.2).length := by
      intro q hq
      rw [accumAt_length]
      exact hp q (List.mem_cons_of_mem p hq)
    rw [scatter_cons, ih (accumAt buf p.1 p.2) hrest, accumAt_getD buf p.1 p.2 hpk,
      List.filter_cons]
    by_cases h : p.1 = k
    · simp [h, add_assoc]
    · have hkp : ¬ k = p.1 := fun h' => h h'.symm
      simp [h, hkp]

theorem foldl_flatMap {α β γ : Type} (f : γ → β → γ) (g : α → List β) (l : List α)
    (init : γ) :
    (l.flatMap g).foldl f init = l.foldl (fun acc x => (g x).foldl f acc) init := by
  induction l generalizing init with
  | nil => rfl
  | cons x xs ih => rw [List.flatMap_cons, List.foldl_append, ih, List.foldl_cons]

theorem mul_eq_scatter {T : Type} [Zero T] [Add T] [Mul T] (a b : List T)
    (h : ¬ a.length + b.length = 0) :
    Signal.mul a b =
      some (scatter (convPairs a b) (List.replicate (a.length + b.length - 1) 0)) := by
  rw [Signal.mul, if_neg h, scatter, convPairs, foldl_flatMap]
  simp only [List.foldl_map]

theorem sum_map_range {M : Type} [AddCommMonoid M] (f : Nat → M) (n : Nat) :
    ((List.range n).map f).sum = ∑ i ∈ Finset.range n, f i := by
  induction n with
  | zero => rfl
  | succ n ih =>
    rw [List.range_succ, List.map_append, List.sum_append, Finset.sum_range_succ, ih]
    simp

theorem sum_map_filter_ite {α M : Type} [AddCommMonoid M] (l : List α) (q : α → Bool)
    (f : α → M) :
    ((l.filter q).map f).sum = (l.map (fun x => if q x then f x else 0)).sum := by
  induction l with
  | nil => rfl
  | cons x xs ih =>
    rw [List.filter_cons]
    by_cases h : q x
    · simp [h, ih]
    · simp [h, ih]

theorem sum_filter_flatMap {α β M : Type} [AddCommMonoid M] (l : List α) (g : α → List β)
    (q : β → Bool) (f : β → M) :
    (((l.flatMap g).filter q).map f).sum
      = (l.map (fun x => (((g x).filter q).map f).sum)).sum := by
  induction l with
  | nil => rfl
  | cons x xs ih =>
    rw [List.flatMap_cons, List.filter_append, List.map_append, List.sum_append, ih,
      List.map_cons, List.sum_cons]

theorem convPairs_filter_sum {T : Type} [AddCommMonoid T] [Mul T] (a b : List T) (k : Nat) :
    (((convPairs a b).filter (fun p => p.1 == k)).map Prod.snd).sum
      = ∑ i ∈ Finset.range a.length, ∑ j ∈ Finset.range b.length,
          (if i + j = k then a.getD i 0 * b.getD j 0 else 0) := by
  rw [convPairs, sum_filter_flatMap, sum_map_range]
  refine Finset.sum_congr rfl (fun i _ => ?_)
  simp only [List.filter_map, List.map_map, sum_map_filter_ite, sum_map_range,
    Function.comp_apply, beq_iff_eq]

theorem getD_replicate_zero {T : Type} [Zero T] (n k : Nat) :
    (List.replicate n (0 : T)).getD k 0 = 0 := by
  rw [List.getD_eq_getElem?_getD, List.getElem?_replicate]
  by_cases h : k < n <;> simp [h]

theorem convPairs_fst_lt {T : Type} [Zero T] [Mul T] (a b : List T)
    (p : Nat × T) (hp : p ∈ convPairs a b) : p.1 < a.length + b.length - 1 := by
  rw [convPairs, List.mem_flatMap] at hp
  obtain ⟨i, hi, hmem⟩ := hp
  rw [List.mem_map] at hmem
  obtain ⟨j, hj, rfl⟩ := hmem
  rw [List.mem_range] at hi
  rw [List.mem_range] at hj
  show i + j < a.length + b.length - 1
  omega

theorem mul_some_spec {T : Type} [AddCommMonoid T] [Mul T] (a b : List T)
    (h : ¬ a.length + b.length = 0) :
    ∃ r, Signal.mul a b = some r ∧ r.length = a.length + b.length - 1 ∧
      ∀ k, r.getD k 0 = ∑ i ∈ Finset.range a.length, ∑ j ∈ Finset.range b.length,
        (if i + j = k then a.getD i 0 * b.getD j 0 else 0) := by
  refine ⟨_, mul_eq_scatter a b h, ?_, ?_⟩
  · rw [scatter_length, List.length_replicate]
  · intro k
    rw [scatter_getD _ _
        (fun p hp => by rw [List.length_replicate]; exact convPairs_fst_lt a b p hp) k,
      getD_replicate_zero, zero_add, convPairs_filter_sum]

theorem convPairs_nil_right {T : Type} [Zero T] [Mul T] (a : List T) :
    convPairs a [] = [] := by
  simp [convPairs]

theorem convPairs_nil_left {T : Type} [Zero T] [Mul T] (b : List T) :
    convPairs [] b = [] := by
  simp [convPairs]

theorem mul_nil_right {T : Type} [Zero T] [Add T] [Mul T] (a : List T) (ha : a ≠ []) :
    Signal.mul a [] = some (List.replicate (a.length - 1) 0) := by
  have hl : 0 < a.length := List.length_pos.mpr ha
  rw [mul_eq_scatter a [] (by simpa using ha), convPairs_nil_right, scatter_nil]
  simp

theorem mul_nil_left {T : Type} [Zero T] [Add T] [Mul T] (a : List T) (ha : a ≠ []) :
    Signal.mul [] a = some (List.replicate (a.length - 1) 0) := by
  have hl : 0 < a.length := List.length_pos.mpr ha
  rw [mul_eq_scatter [] a (by simpa using ha), convPairs_nil_left, scatter_nil]
  simp

theorem mul_nil_nil {T : Type} [Zero T] [Add T] [Mul T] :
    Signal.mul ([] : List T) [] = none := rfl

end Signal

/-! ## Claim theorems: Signal arithmetic -/

open Signal

/-- C1: for non-empty signals `a` (length n) and `b` (length m) over a numeric
type with addition, multiplication and a zero, `a * b` returns a signal of
length `n + m - 1` whose sample at every output index `k` is the sum of
`a[i] * b[j]` over all pairs `(i, j)` with `i + j = k` (each output sample
starting from zero and accumulating). -/
theorem mul_convolution_spec {T : Type} [AddCommMonoid T] [Mul T] (a b : List T)
    (ha : a ≠ []) (hb : b ≠ []) :
    ∃ r, Signal.mul a b = some r ∧ r.length = a.length + b.length - 1 ∧
      ∀ k, r.getD k 0 = ∑ i ∈ Finset.range a.length, ∑ j ∈ Finset.range b.length,
        (if i + j = k then a.getD i 0 * b.getD j 0 else 0) :=
  mul_some_spec a b (by
    have h1 := List.length_pos.mpr ha
    have h2 := List.length_pos.mpr hb
    omega)

theorem mul_convolution_spec_witness :
    (∃ r, Signal.mul ([1, 2, 3] : List Int) [4, 5] = some r ∧
      r.length = ([1, 2, 3] : List Int).length + ([4, 5] : List Int).length - 1 ∧
      ∀ k, r.getD k 0 = ∑ i ∈ Finset.range ([1, 2, 3] : List Int).length,
        ∑ j ∈ Finset.range ([4, 5] : List Int).length,
          (if i + j = k then ([1, 2, 3] : List Int).getD i 0 * ([4, 5] : List Int).getD j 0
            else 0)) ∧
    Signal.mul ([1, 2, 3] : List Int) [4, 5] = some [4, 13, 22, 15] :=
  ⟨mul_convolution_spec [1, 2, 3] [4, 5] (by decide) (by decide), by decide⟩

/-- C10: if exactly one convolution operand is empty and the other has length
`n ≥ 1`, the operation returns normally a signal of length `n - 1` all of
whose samples are zero; when both operands are empty the length computation
underflows and the operation faults. -/
theorem mul_one_empty_spec {T : Type} [Zero T] [Add T] [Mul T] (a : List T)
    (ha : a ≠ []) :
    Signal.mul a [] = some (List.replicate (a.length - 1) 0) ∧
    Signal.mul [] a = some (List.replicate (a.length - 1) 0) ∧
    Signal.mul ([] : List T) [] = none :=
  ⟨mul_nil_right a ha, mul_nil_left a ha, mul_nil_nil⟩

theorem mul_one_empty_spec_witness :
    (Signal.mul ([1, 2] : List Int) [] =
        some (List.replicate (([1, 2] : List Int).length - 1) 0) ∧
      Signal.mul [] ([1, 2] : List Int) =
        some (List.replicate (([1, 2] : List Int).length - 1) 0) ∧
      Signal.mul ([] : List Int) [] = none) ∧
    Signal.mul ([1, 2] : List Int) [] = some [0] :=
  ⟨mul_one_empty_spec [1, 2] (by decide), by decide⟩

/-- C2, counterexample: the claim says convolving with an empty operand yields
a length-0 output, but `mul [1, 2] []` returns a signal of length 1. -/
theorem mul_empty_counterexample :
    (Signal.mul ([1, 2] : List Int) []).map List.length ≠ some 0 := by
  decide

/-- C2 (amended): convolution with an empty operand yields an output of length
`n - 1` (not 0) when the other operand is non-empty of length `n`; when both
operands are empty the operation faults instead of returning a result. -/
theorem mul_empty_amended {T : Type} [Zero T] [Add T] [Mul T] (a : List T)
    (ha : a ≠ []) :
    (Signal.mul a []).map List.length = some (a.length - 1) ∧
    (Signal.mul [] a).map List.length = some (a.length - 1) ∧
    Signal.mul ([] : List T) [] = none := by
  refine ⟨?_, ?_, mul_nil_nil⟩
  · rw [mul_nil_right a ha]
    simp
  · rw [mul_nil_left a ha]
    simp

theorem mul_empty_amended_witness :
    (Signal.mul ([1, 2] : List Int) []).map List.length = some 1 := by
  have h := (mul_empty_amended ([1, 2] : List Int) (by decide)).1
  simpa using h

/-- C6: convolving any signal with the single-sample unit signal `[1]`
returns the original signal unchanged. -/
theorem mul_unit_identity {T : Type} [AddCommMonoid T] [MulOneClass T] (x : List T) :
    Signal.mul x [1] = some x := by
  rcases eq_or_ne x [] with rfl | hx
  · rfl
  · obtain ⟨r, hr, hlen, hval⟩ := mul_some_spec x [1] (by simp)
    rw [hr]
    have hlen' : r.length = x.length := by simpa using hlen
    congr 1
    refine List.ext_getElem hlen' (fun n h1 h2 => ?_)
    rw [← List.getD_eq_getElem r 0 h1, ← List.getD_eq_getElem x 0 h2, hval n]
    have hone : ([1] : List T).getD 0 0 = 1 := rfl
    simp only [List.length_singleton, Finset.sum_range_one, Nat.add_zero, hone, mul_one]
    rw [Finset.sum_ite_eq' (Finset.range x.length) n (fun i => x.getD i 0)]
    rw [if_pos (Finset.mem_range.mpr h2)]

/-- C5: signal addition has length `max(len a, len b)`, each sample is the sum
of the operand samples under zero-extension of the shorter operand, and the
operation is commutative. -/
theorem add_spec_comm {T : Type} [AddCommMonoid T] (a b : List T) :
    (Signal.add a b).length = max a.length b.length ∧
    (∀ i, i < max a.length b.length →
      (Signal.add a b).getD i 0 =
        (if i < a.length then a.getD i 0 else 0) +
        (if i < b.length then b.getD i 0 else 0)) ∧
    Signal.add a b = Signal.add b a := by
  refine ⟨by simp [Signal.add], ?_, ?_⟩
  · intro i hi
    have hlen : i < (Signal.add a b).length := by simpa [Signal.add] using hi
    rw [List.getD_eq_getElem _ 0 hlen]
    simp [Signal.add]
  · refine List.ext_getElem (by simp [Signal.add, Nat.max_comm]) (fun n h1 h2 => ?_)
    simp only [Signal.add, List.getElem_map, List.getElem_range]
    exact add_comm _ _

theorem add_spec_comm_witness :
    (Signal.add ([1, 2, 3] : List Int) [4, 5]).getD 2 0 =
      ((if 2 < ([1, 2, 3] : List Int).length then ([1, 2, 3] : List Int).getD 2 0 else 0) +
        (if 2 < ([4, 5] : List Int).length then ([4, 5] : List Int).getD 2 0 else 0)) ∧
    Signal.add ([1, 2, 3] : List Int) [4, 5] = [5, 7, 3] :=
  ⟨(add_spec_comm ([1, 2, 3] : List Int) [4, 5]).2.1 2 (by decide), by decide⟩

/-- C3: for `d ≤ len s`, `add_delay s d` returns a signal of the same length
as `s` whose first `d` samples are zero and whose sample at every index
`d ≤ i < len s` is `s[i - d]` (the final `d` samples of `s` are dropped). -/
theorem add_delay_spec {T : Type} [Zero T] (s : List T) (d : Nat) (hd : d ≤ s.length) :
    ∃ r, Signal.add_delay s d = some r ∧ r.length = s.length ∧
      (∀ i, i < d → r.getD i 0 = 0) ∧
      (∀ i, d ≤ i → i < s.length → r.getD i 0 = s.getD (i - d) 0) := by
  refine ⟨_, by rw [Signal.add_delay, if_pos hd], ?_, ?_, ?_⟩
  · have hmin : ((s.length - d) ⊓ s.length : Nat) = s.length - d :=
      min_eq_left (Nat.sub_le _ _)
    simp only [List.length_append, List.length_replicate, List.length_take, hmin]
    omega
  · intro i hi
    rw [List.getD_eq_getElem?_getD,
      List.getElem?_append_left (by simpa using hi), List.getElem?_replicate]
    simp [hi]
  · intro i hdi his
    rw [List.getD_eq_getElem?_getD,
      List.getElem?_append_right (by simpa using hdi)]
    simp only [List.length_replicate]
    rw [List.getElem?_take, if_pos (by omega)]
    exact (List.getD_eq_getElem?_getD s (i - d) 0).symm

theorem add_delay_spec_witness :
    Signal.add_delay ([1, 2, 3, 4, 5] : List Int) 2 = some [0, 0, 1, 2, 3] ∧
    (∃ r, Signal.add_delay ([1, 2, 3, 4, 5] : List Int) 2 = some r ∧
      r.length = ([1, 2, 3, 4, 5] : List Int).length ∧
      (∀ i, i < 2 → r.getD i 0 = 0) ∧
      (∀ i, 2 ≤ i → i < ([1, 2, 3, 4, 5] : List Int).length →
        r.getD i 0 = ([1, 2, 3, 4, 5] : List Int).getD (i - 2) 0)) :=
  ⟨by decide, add_delay_spec [1, 2, 3, 4, 5] 2 (by decide)⟩

/-- C4: under the precondition `d ≤ len s` the length computation never
underflows and `add_delay` returns a result for every such `s` and `d`;
for `d > len s` the subtraction underflows and the operation faults. -/
theorem add_delay_total_iff {T : Type} [Zero T] (s : List T) (d : Nat) :
    (d ≤ s.length → (Signal.add_delay s d).isSome = true) ∧
    (s.length < d → Signal.add_delay s d = none) := by
  constructor
  · intro h
    rw [Signal.add_delay, if_pos h]
    rfl
  · intro h
    rw [Signal.add_delay, if_neg (by omega)]

theorem add_delay_total_iff_witness :
    (Signal.add_delay ([1, 2] : List Int) 1).isSome = true ∧
    Signal.add_delay ([1, 2] : List Int) 3 = none :=
  ⟨(add_delay_total_iff ([1, 2] : List Int) 1).1 (by decide),
    (add_delay_total_iff ([1, 2] : List Int) 3).2 (by decide)⟩

/-! ## Helper lemmas: generators -/

theorem write_buffer_fst {σ α : Type} (next : σ → α × σ) (g : σ) (buf : List α) :
    (write_buffer next g buf).1 = pulls next g buf.length := by
  induction buf generalizing g with
  | nil => rfl
  | cons x xs ih => simp [write_buffer, pulls, ih]

theorem pulls_step_zero (L : Nat) :
    pulls Step.next ⟨0⟩ L = List.replicate L 1 := by
  induction L with
  | zero => rfl
  | succ L ih => simp [pulls, Step.next, ih, List.replicate_succ]

theorem pulls_step (p L : Nat) (h : p ≤ L) :
    pulls Step.next ⟨p⟩ L = List.replicate p 0 ++ List.replicate (L - p) 1 := by
  induction p generalizing L with
  | zero => simpa using pulls_step_zero L
  | succ p ih =>
    cases L with
    | zero => omega
    | succ L =>
      have hb : Step.next ⟨p + 1⟩ = ((0 : ℚ), (⟨p⟩ : Step)) := by
        simp [Step.next]
      rw [pulls, hb]
      rw [ih L (by omega)]
      simp [List.replicate_succ, Nat.succ_sub_succ]

theorem pulls_impulse_fired (m : Nat) :
    pulls Impulse.next ⟨true⟩ m = List.replicate m 0 := by
  induction m with
  | zero => rfl
  | succ m ih => simp [pulls, Impulse.next, ih, List.replicate_succ]

theorem stateAfter_succ {σ α : Type} (next : σ → α × σ) (g : σ) (n : Nat) :
    stateAfter next g (n + 1) = (next (stateAfter next g n)).2 := by
  induction n generalizing g with
  | zero => rfl
  | succ n ih =>
    rw [show stateAfter next g (n + 1 + 1) = stateAfter next (next g).2 (n + 1) from rfl,
      ih, show stateAfter next g (n + 1) = stateAfter next (next g).2 n from rfl]

theorem mod_step (r k : Nat) (hr : 1 ≤ r) :
    (if r ≤ k % r + 1 then 0 else k % r + 1) = (k + 1) % r := by
  have hk : k % r < r := Nat.mod_lt k hr
  have key : (k + 1) % r = (k % r + 1) % r := by
    conv_lhs => rw [← Nat.div_add_mod k r]
    rw [Nat.add_assoc, Nat.mul_add_mod]
  by_cases h : r ≤ k % r + 1
  · have h1 : k % r + 1 = r := by omega
    rw [if_pos h, key, h1, Nat.mod_self]
  · rw [if_neg h, key]
    exact (Nat.mod_eq_of_lt (by omega)).symm

theorem sawtooth_stateAfter (r : Nat) (hr : 1 ≤ r) (k : Nat) :
    stateAfter Sawtooth.next (Sawtooth.new r) k = ⟨k % r, r⟩ := by
  induction k with
  | zero => simp [stateAfter, Sawtooth.new, Nat.zero_mod]
  | succ k ih =>
    rw [stateAfter_succ, ih]
    show (⟨if r ≤ k % r + 1 then 0 else k % r + 1, r⟩ : Sawtooth) = ⟨(k + 1) % r, r⟩
    rw [mod_step r k hr]

theorem square_stateAfter (r : Nat) (hr : 1 ≤ r) (k : Nat) :
    stateAfter Square.next (Square.new r) k = ⟨k % r, r⟩ := by
  induction k with
  | zero => simp [stateAfter, Square.new, Nat.zero_mod]
  | succ k ih =>
    rw [stateAfter_succ, ih]
    show (⟨if r ≤ k % r + 1 then 0 else k % r + 1, r⟩ : Square) = ⟨(k + 1) % r, r⟩
    rw [mod_step r k hr]

/-! ## Claim theorems: generators -/

/-- C7: filling a buffer of length `L ≥ p` from a fresh `Step(p)` generator
overwrites every position in order with one pull each (equivalently, with the
`L` sequential pulls), and the resulting contents are `p` samples of `0.0`
followed by `L - p` samples of `1.0`. -/
theorem step_fill_spec (p : Nat) (buf : List ℚ) (h : p ≤ buf.length) :
    (write_buffer Step.next (Step.new p) buf).1 =
      List.replicate p 0 ++ List.replicate (buf.length - p) 1 ∧
    (write_buffer Step.next (Step.new p) buf).1 =
      pulls Step.next (Step.new p) buf.length := by
  have hw := write_buffer_fst Step.next (Step.new p) buf
  refine ⟨?_, hw⟩
  rw [hw]
  exact pulls_step p buf.length h

theorem step_fill_spec_witness :
    ((write_buffer Step.next (Step.new 1) [0, 0, 0]).1 =
        List.replicate 1 0 ++ List.replicate (([0, 0, 0] : List ℚ).length - 1) 1) ∧
    (write_buffer Step.next (Step.new 1) [0, 0, 0]).1 = [0, 1, 1] :=
  ⟨(step_fill_spec 1 [0, 0, 0] (by decide)).1, by decide⟩

/-- C8: a fresh `Impulse` emits `1.0` on the first pull and sets the
`impulse_sent` flag; once the flag is set every pull emits `0.0` and keeps the
flag, so `n ≥ 1` pulls from a fresh generator give `[1.0, 0.0, ..., 0.0]`. -/
theorem impulse_spec :
    (Impulse.next Impulse.new).1 = 1 ∧
    (Impulse.next Impulse.new).2.impulse_sent = true ∧
    (∀ g : Impulse, g.impulse_sent = true →
      (Impulse.next g).1 = 0 ∧ (Impulse.next g).2.impulse_sent = true) ∧
    (∀ n, 1 ≤ n → pulls Impulse.next Impulse.new n = 1 :: List.replicate (n - 1) 0) := by
  refine ⟨rfl, rfl, ?_, ?_⟩
  · intro g hg
    cases g
    simp_all [Impulse.next]
  · intro n hn
    cases n with
    | zero => omega
    | succ m =>
      show (Impulse.next ⟨false⟩).1 :: pulls Impulse.next (Impulse.next ⟨false⟩).2 m = _
      simp [Impulse.next, pulls_impulse_fired, Nat.succ_sub_one]

theorem impulse_spec_witness :
    pulls Impulse.next Impulse.new 3 = 1 :: List.replicate (3 - 1) 0 ∧
    pulls Impulse.next Impulse.new 3 = [1, 0, 0] :=
  ⟨impulse_spec.2.2.2 3 (by decide), by decide⟩

/-- C9: for `Sawtooth` and `Square` with sample rate `r ≥ 1` the internal
position starts at 0, equals `k mod r` after `k` pulls (hence stays below
`r`), the sample emitted at pull count `k` is computed from position
`k mod r`, and the counter is periodic with period `r`. -/
theorem saw_square_position_spec (r : Nat) (hr : 1 ≤ r) (k : Nat) :
    ((Sawtooth.new r).step_pos = 0 ∧
      (stateAfter Sawtooth.next (Sawtooth.new r) k).step_pos = k % r ∧
      (stateAfter Sawtooth.next (Sawtooth.new r) k).step_pos < r ∧
      (Sawtooth.next (stateAfter Sawtooth.next (Sawtooth.new r) k)).1 = k % r ∧
      (stateAfter Sawtooth.next (Sawtooth.new r) (k + r)).step_pos =
        (stateAfter Sawtooth.next (Sawtooth.new r) k).step_pos) ∧
    ((Square.new r).step_pos = 0 ∧
      (stateAfter Square.next (Square.new r) k).step_pos = k % r ∧
      (stateAfter Square.next (Square.new r) k).step_pos < r ∧
      (Square.next (stateAfter Square.next (Square.new r) k)).1 = k % r ∧
      (stateAfter Square.next (Square.new r) (k + r)).step_pos =
        (stateAfter Square.next (Square.new r) k).step_pos) := by
  have hs := sawtooth_stateAfter r hr
  have hq := square_stateAfter r hr
  constructor
  · refine ⟨rfl, ?_, ?_, ?_, ?_⟩
    · rw [hs k]
    · rw [hs k]
      exact Nat.mod_lt k hr
    · rw [hs k]
      rfl
    · rw [hs (k + r), hs k]
      simp [Nat.add_mod_right]
  · refine ⟨rfl, ?_, ?_, ?_, ?_⟩
    · rw [hq k]
    · rw [hq k]
      exact Nat.mod_lt k hr
    · rw [hq k]
      rfl
    · rw [hq (k + r), hq k]
      simp [Nat.add_mod_right]

theorem saw_square_position_spec_witness :
    (stateAfter Sawtooth.next (Sawtooth.new 3) 5).step_pos = 5 % 3 ∧
    (stateAfter Square.next (Square.new 3) 5).step_pos = 5 % 3 ∧
    (stateAfter Sawtooth.next (Sawtooth.new 3) 5).step_pos = 2 :=
  ⟨(saw_square_position_spec 3 (by decide) 5).1.2.1,
    (saw_square_position_spec 3 (by decide) 5).2.2.1,
    by decide⟩

end SignalRs
